import Mathlib

/-!
Verification of the sports-odds-pipeline repository.

JavaScript / TypeScript strings are embedded as `List Char`; the JS `<`
comparison on strings is lexicographic on code units, which for the ASCII
data handled here coincides with the lexicographic order on `List Char`
provided by Mathlib.  American moneyline prices are signed integers and are
embedded as `ℤ`; decimal payout multipliers are exact rationals (`ℚ`).

The frontend (`src/web`) and the Spring Boot routing layer
(`src/java-api`) are embedded from their sources.  The Python ETL service
(price normalisation, identity linking, analytics, the run lock) is not
part of the source tree; the definitions for those components are
modelled from the specification and are marked as such in their doc
comments.
-/

namespace OddsPipeline

/-- The two sides of a moneyline market. -/
inductive Side where
  | home
  | away
deriving DecidableEq, Repr

/-- Decimal payout multiplier of an American price.
Modelled from the spec: price ≥ 0 → `1 + price/100`; price < 0 →
`1 + 100/|price|`.  (`p = 0` is rejected upstream by the normaliser.) -/
def americanToDec (p : ℤ) : ℚ :=
  if 0 ≤ p then 1 + (p : ℚ) / 100 else 1 + 100 / (-(p : ℚ))

/-- A row of the games table, from `GameRow` in `src/web/src/lib/api.ts`. -/
structure GameRow where
  odds_event_id : List Char
  commence_time : Option (List Char)
  home_team : List Char
  away_team : List Char
  best_home_price_american : Option ℤ
  best_away_price_american : Option ℤ
  status : Option (List Char)
  completed : Option ℤ
  start_time : Option (List Char)
  home_score : Option ℤ
  away_score : Option ℤ
  winner : Option (List Char)

/-- `isFinal` from `src/web/src/components/GamesTable.tsx`:
`row.completed === 1 || (row.status ?? "") === "Final"`. -/
def isFinal (row : GameRow) : Bool :=
  row.completed == some 1 || row.status.getD [] == "Final".toList

/-- `favoriteSide` from `src/web/src/components/GamesTable.tsx`: both
prices must be present, equal prices give no favorite, otherwise the side
with the more negative (smaller) American price is the favorite. -/
def favoriteSide (row : GameRow) : Option Side :=
  match row.best_away_price_american, row.best_home_price_american with
  | some a, some h =>
      if a = h then none
      else if a < h then some .away else some .home
  | _, _ => none

/-- JS `String.prototype.trim`: strip whitespace from both ends. -/
def jsTrim (s : List Char) : List Char :=
  ((s.dropWhile Char.isWhitespace).reverse.dropWhile Char.isWhitespace).reverse

/-- `norm` from `GamesTable.tsx`: `s.trim().toLowerCase()`. -/
def normStr (s : List Char) : List Char :=
  (jsTrim s).map Char.toLower

/-- Whether `needle` occurs at the start of `hay` (JS `startsWith`). -/
def startsWithSub : List Char → List Char → Bool
  | _, [] => true
  | [], _ :: _ => false
  | a :: as, b :: bs => a == b && startsWithSub as bs

/-- Whether `needle` occurs as a contiguous substring of `hay`
(JS `String.prototype.includes`). -/
def hasSub : List Char → List Char → Bool
  | [], needle => needle.isEmpty
  | hay@(_ :: t), needle => startsWithSub hay needle || hasSub t needle

/-- `winnerSide` from `GamesTable.tsx`: the backend winner field may be
`"home"`, `"away"`, or a team name; falsy (missing or empty) winner gives
`null`; a team name is matched case-insensitively against the row's team
names, with a substring fallback. -/
def winnerSide (row : GameRow) : Option Side :=
  match row.winner with
  | none => none
  | some w =>
    if w = [] then none
    else if w = "home".toList then some .home
    else if w = "away".toList then some .away
    else
      let wn := normStr w
      let home := normStr row.home_team
      let away := normStr row.away_team
      if wn = home then some .home
      else if wn = away then some .away
      else if home ≠ [] ∧ hasSub wn home = true then some .home
      else if away ≠ [] ∧ hasSub wn away = true then some .away
      else none

/-- `didUpset` from `GamesTable.tsx`: final rows with a favorite and a
resolvable winner, where the winner is not the favorite. -/
def didUpset (row : GameRow) : Bool :=
  if !isFinal row then false
  else
    match favoriteSide row with
    | none => false
    | some fav =>
      match winnerSide row with
      | none => false
      | some ws => decide (ws ≠ fav)

/-! ### Facts about the decimal payout multiplier -/

theorem americanToDec_nonneg_eq {p : ℤ} (hp : 0 ≤ p) :
    americanToDec p = 1 + (p : ℚ) / 100 := if_pos hp

theorem americanToDec_neg_eq {p : ℤ} (hp : p < 0) :
    americanToDec p = 1 + 100 / (-(p : ℚ)) := if_neg (not_le.mpr hp)

/-- On American prices of magnitude at least 100, excluding the degenerate
even-money pair `(-100, 100)`, the decimal payout multiplier is strictly
monotone in the signed American price. -/
theorem americanToDec_strictMonoOn {a h : ℤ} (ha : 100 ≤ |a|) (hh : 100 ≤ |h|)
    (hx : ¬(a = -100 ∧ h = 100)) (hlt : a < h) :
    americanToDec a < americanToDec h := by
  rcases le_abs.mp ha with hA | hA
  · -- 100 ≤ a, so h > 100 as well
    have hH : (100 : ℤ) ≤ h := by omega
    rw [americanToDec_nonneg_eq (by omega : (0:ℤ) ≤ a),
        americanToDec_nonneg_eq (by omega : (0:ℤ) ≤ h)]
    have hq : (a : ℚ) < (h : ℚ) := by exact_mod_cast hlt
    have h2 : (a : ℚ) / 100 < (h : ℚ) / 100 := by gcongr
    linarith
  · -- a ≤ -100
    have ha0 : a < 0 := by omega
    rcases le_abs.mp hh with hH | hH
    · -- 100 ≤ h
      have hh0 : (0 : ℤ) ≤ h := by omega
      rw [americanToDec_neg_eq ha0, americanToDec_nonneg_eq hh0]
      have haq : (100 : ℚ) ≤ -(a : ℚ) := by exact_mod_cast hA
      have hhq : (100 : ℚ) ≤ (h : ℚ) := by exact_mod_cast hH
      have hh1 : (1 : ℚ) ≤ (h : ℚ) / 100 := by
        rw [le_div_iff₀ (by norm_num)]; linarith
      by_cases hae : a = -100
      · have hne : h ≠ 100 := fun hh100 => hx ⟨hae, hh100⟩
        have hq : (100 : ℚ) < (h : ℚ) := by
          exact_mod_cast lt_of_le_of_ne hH (Ne.symm hne)
        have h1 : (1 : ℚ) < (h : ℚ) / 100 := by
          rw [lt_div_iff₀ (by norm_num)]; linarith
        subst hae
        norm_num
        linarith
      · have haq' : (100 : ℚ) < -(a : ℚ) := by
          exact_mod_cast (by omega : (100 : ℤ) < -a)
        have h1 : 100 / (-(a : ℚ)) < 1 := by
          rw [div_lt_one (by linarith)]; exact haq'
        linarith
    · -- h ≤ -100
      have hh0 : h < 0 := by omega
      rw [americanToDec_neg_eq ha0, americanToDec_neg_eq hh0]
      have h1 : (0 : ℚ) < -(h : ℚ) := by
        have : (100 : ℚ) ≤ -(h : ℚ) := by exact_mod_cast hH
        linarith
      have h2 : -(h : ℚ) < -(a : ℚ) := by
        have : (a : ℚ) < (h : ℚ) := by exact_mod_cast hlt
        linarith
      have := div_lt_div_of_pos_left (by norm_num : (0:ℚ) < 100) h1 h2
      linarith

/-- On American prices of magnitude at least 100, excluding the
even-money pairs `(-100, 100)` and `(100, -100)`, equal payout multipliers
force equal prices. -/
theorem americanToDec_injOn {a h : ℤ} (ha : 100 ≤ |a|) (hh : 100 ≤ |h|)
    (hx1 : ¬(a = -100 ∧ h = 100)) (hx2 : ¬(a = 100 ∧ h = -100)) :
    (americanToDec a = americanToDec h ↔ a = h) := by
  constructor
  · intro he
    rcases lt_trichotomy a h with hlt | heq | hgt
    · exact absurd he (ne_of_lt (americanToDec_strictMonoOn ha hh hx1 hlt))
    · exact heq
    · exact absurd he.symm
        (ne_of_lt (americanToDec_strictMonoOn hh ha
          (fun hp => hx2 ⟨hp.2, hp.1⟩) hgt))
  · rintro rfl; rfl

/-- C1 (amended): for a game row whose two best American prices are present,
both of magnitude at least 100 and not the degenerate even-money pair
−100/+100, the derived favorite side is exactly the side whose decimal
payout multiplier is strictly lower, and `favorite_side` is null exactly
when the two sides' payout multipliers are equal. -/
theorem favoriteSide_eq_lower_multiplier (row : GameRow) (a h : ℤ)
    (hra : row.best_away_price_american = some a)
    (hrh : row.best_home_price_american = some h)
    (ha : 100 ≤ |a|) (hh : 100 ≤ |h|)
    (hx1 : ¬(a = -100 ∧ h = 100)) (hx2 : ¬(a = 100 ∧ h = -100)) :
    (favoriteSide row = some Side.away ↔ americanToDec a < americanToDec h) ∧
    (favoriteSide row = some Side.home ↔ americanToDec h < americanToDec a) ∧
    (favoriteSide row = none ↔ americanToDec a = americanToDec h) := by
  have hinj := americanToDec_injOn ha hh hx1 hx2
  simp only [favoriteSide, hra, hrh]
  rcases lt_trichotomy a h with hlt | heq | hgt
  · have hd := americanToDec_strictMonoOn ha hh hx1 hlt
    rw [if_neg (by omega : ¬ a = h), if_pos hlt]
    refine ⟨⟨fun _ => hd, fun _ => rfl⟩,
      ⟨fun hcon => absurd hcon (by simp), fun hcon => absurd hcon (not_lt.mpr hd.le)⟩,
      ⟨fun hcon => absurd hcon (by simp), fun hcon => absurd hcon (ne_of_lt hd)⟩⟩
  · subst heq
    rw [if_pos rfl]
    exact ⟨by simp, by simp, by simp⟩
  · have hd := americanToDec_strictMonoOn hh ha (fun hp => hx2 ⟨hp.2, hp.1⟩) hgt
    rw [if_neg (by omega : ¬ a = h), if_neg (by omega : ¬ a < h)]
    refine ⟨⟨fun hcon => absurd hcon (by simp), fun hcon => absurd hcon (not_lt.mpr hd.le)⟩,
      ⟨fun _ => hd, fun _ => rfl⟩,
      ⟨fun hcon => absurd hcon (by simp), fun hcon => absurd hcon (ne_of_gt hd)⟩⟩

/-- Concrete row used to witness the amended favorite-side rule:
best away price +130, best home price −140. -/
def c1Row : GameRow :=
  { odds_event_id := "evt-c1".toList
    commence_time := none
    home_team := "H".toList
    away_team := "A".toList
    best_home_price_american := some (-140)
    best_away_price_american := some 130
    status := none
    completed := none
    start_time := none
    home_score := none
    away_score := none
    winner := none }

theorem favoriteSide_eq_lower_multiplier_witness :
    (favoriteSide c1Row = some Side.away ↔
        americanToDec 130 < americanToDec (-140)) ∧
    (favoriteSide c1Row = some Side.home ↔
        americanToDec (-140) < americanToDec 130) ∧
    (favoriteSide c1Row = none ↔ americanToDec 130 = americanToDec (-140)) :=
  favoriteSide_eq_lower_multiplier c1Row 130 (-140) rfl rfl
    (by decide) (by decide) (by decide) (by decide)

/-- Row quoting away −100 and home +100: both payout multipliers equal 2. -/
def c1RowEq : GameRow :=
  { odds_event_id := "evt-c1-eq".toList
    commence_time := none
    home_team := "H".toList
    away_team := "A".toList
    best_home_price_american := some 100
    best_away_price_american := some (-100)
    status := none
    completed := none
    start_time := none
    home_score := none
    away_score := none
    winner := none }

/-- Row quoting away −50 and home +100: away has the strictly higher
payout multiplier (3 versus 2). -/
def c1RowLow : GameRow :=
  { odds_event_id := "evt-c1-low".toList
    commence_time := none
    home_team := "H".toList
    away_team := "A".toList
    best_home_price_american := some 100
    best_away_price_american := some (-50)
    status := none
    completed := none
    start_time := none
    home_score := none
    away_score := none
    winner := none }

/-- C1 as stated is false on the code: at away −100 / home +100 the two
payout multipliers are equal yet `favoriteSide` yields away rather than
null, and at away −50 / home +100 `favoriteSide` yields away although
away's payout multiplier is strictly higher than home's. -/
theorem favoriteSide_claim_counterexample :
    favoriteSide c1RowEq = some Side.away ∧
    americanToDec (-100) = americanToDec 100 ∧
    favoriteSide c1RowLow = some Side.away ∧
    americanToDec 100 < americanToDec (-50) := by
  refine ⟨by decide, ?_, by decide, ?_⟩
  · norm_num [americanToDec]
  · norm_num [americanToDec]

/-! ### C9: `didUpset` characterization -/

/-- C9: `didUpset` is true exactly when the row is final, a favorite side
is determined, a winner side can be resolved, and the winner differs from
the favorite. -/
theorem didUpset_characterization (row : GameRow) :
    didUpset row = true ↔
      (isFinal row = true ∧ favoriteSide row ≠ none ∧ winnerSide row ≠ none ∧
        winnerSide row ≠ favoriteSide row) := by
  cases hf : isFinal row with
  | false => simp [didUpset, hf]
  | true =>
    cases hfav : favoriteSide row with
    | none => simp [didUpset, hf, hfav]
    | some fav =>
      cases hws : winnerSide row with
      | none => simp [didUpset, hf, hfav, hws]
      | some ws => simp [didUpset, hf, hfav, hws]

/-- Concrete final row with favorite away (−120 vs +110) won by home. -/
def c9Row : GameRow :=
  { odds_event_id := "evt-c9".toList
    commence_time := none
    home_team := "Pacers".toList
    away_team := "Knicks".toList
    best_home_price_american := some 110
    best_away_price_american := some (-120)
    status := some "Final".toList
    completed := some 1
    start_time := none
    home_score := some 101
    away_score := some 99
    winner := some "home".toList }

theorem didUpset_characterization_witness : didUpset c9Row = true :=
  (didUpset_characterization c9Row).mpr (by decide)

/-! ### C10: analytics page date-range clamping
Embedding of `src/web/src/pages/AnalyticsPage.tsx`.  ISO dates are JS
strings compared lexicographically; `todayISO()` is a parameter `today`. -/

/-- `MIN_DATE` from `AnalyticsPage.tsx`. -/
def MIN_DATE : List Char := "2026-02-19".toList

/-- `clampISODate` from `AnalyticsPage.tsx`: an empty (falsy) date clamps
to the minimum, otherwise the date is clamped into `[min, max]`. -/
def clampISODate (d min max : List Char) : List Char :=
  if d = [] then min
  else if d < min then min
  else if max < d then max
  else d

/-- The start-input `onChange` handler: clamp the typed value, then keep
`start ≤ end`. -/
def startInputUpdate (v s e today : List Char) : List Char × List Char :=
  let next := clampISODate v MIN_DATE today
  (if e < next then e else next, e)

/-- The end-input `onChange` handler: clamp the typed value, then keep
`start ≤ end`. -/
def endInputUpdate (v s e today : List Char) : List Char × List Char :=
  let next := clampISODate v MIN_DATE today
  (s, if next < s then s else next)

/-- `quickRange` from `AnalyticsPage.tsx`: `rawStart` is `isoDaysAgo(days)`;
both endpoints are clamped and `start ≤ end` is restored. -/
def quickRangeUpdate (rawStart today : List Char) : List Char × List Char :=
  let nextStart := clampISODate rawStart MIN_DATE today
  let nextEnd := clampISODate today MIN_DATE today
  (if nextEnd < nextStart then nextEnd else nextStart, nextEnd)

/-- The clamping `useEffect` from `AnalyticsPage.tsx`: re-clamp both
stored dates and restore `start ≤ end`. -/
def clampEffectUpdate (s e today : List Char) : List Char × List Char :=
  let cs := clampISODate s MIN_DATE today
  let ce := clampISODate e MIN_DATE today
  (if ce < cs then ce else cs, ce)

/-- The invariant of C10: `MIN_DATE ≤ start ≤ end ≤ today`. -/
def dateRangeInv (s e today : List Char) : Prop :=
  MIN_DATE ≤ s ∧ s ≤ e ∧ e ≤ today

theorem clampISODate_mem {d min max : List Char} (h : min ≤ max) :
    min ≤ clampISODate d min max ∧ clampISODate d min max ≤ max := by
  unfold clampISODate
  split_ifs with h1 h2 h3
  · exact ⟨le_refl _, h⟩
  · exact ⟨le_refl _, h⟩
  · exact ⟨h, le_refl _⟩
  · exact ⟨le_of_not_lt h2, le_of_not_lt h3⟩

/-- C10: every date-range update on the analytics page — typing in the
start field, typing in the end field, a quick-range button, and the
clamping effect — preserves `MIN_DATE ≤ start ≤ end ≤ today` (the last
two establish it regardless of the previous range). -/
theorem analytics_range_invariant (v rawStart s e today : List Char)
    (htoday : MIN_DATE ≤ today) (hinv : dateRangeInv s e today) :
    dateRangeInv (startInputUpdate v s e today).1 (startInputUpdate v s e today).2 today ∧
    dateRangeInv (endInputUpdate v s e today).1 (endInputUpdate v s e today).2 today ∧
    dateRangeInv (quickRangeUpdate rawStart today).1 (quickRangeUpdate rawStart today).2 today ∧
    dateRangeInv (clampEffectUpdate s e today).1 (clampEffectUpdate s e today).2 today := by
  obtain ⟨hs1, hs2, hs3⟩ := hinv
  obtain ⟨hv1, hv2⟩ := clampISODate_mem (d := v) htoday
  obtain ⟨hr1, hr2⟩ := clampISODate_mem (d := rawStart) htoday
  obtain ⟨ht1, ht2⟩ := clampISODate_mem (d := today) htoday
  obtain ⟨hcs1, hcs2⟩ := clampISODate_mem (d := s) htoday
  obtain ⟨hce1, hce2⟩ := clampISODate_mem (d := e) htoday
  refine ⟨?_, ?_, ?_, ?_⟩
  · unfold startInputUpdate dateRangeInv
    dsimp only
    split_ifs with h1
    · exact ⟨le_trans hs1 hs2, le_refl _, hs3⟩
    · exact ⟨hv1, le_of_not_lt h1, hs3⟩
  · unfold endInputUpdate dateRangeInv
    dsimp only
    split_ifs with h1
    · exact ⟨hs1, le_refl _, le_trans hs2 hs3⟩
    · exact ⟨hs1, le_of_not_lt h1, hv2⟩
  · unfold quickRangeUpdate dateRangeInv
    dsimp only
    split_ifs with h1
    · exact ⟨ht1, le_refl _, ht2⟩
    · exact ⟨hr1, le_of_not_lt h1, ht2⟩
  · unfold clampEffectUpdate dateRangeInv
    dsimp only
    split_ifs with h1
    · exact ⟨hce1, le_refl _, hce2⟩
    · exact ⟨hcs1, le_of_not_lt h1, hce2⟩

theorem analytics_range_invariant_witness :
    dateRangeInv (startInputUpdate "2026-01-01".toList "2026-03-01".toList
        "2026-03-05".toList "2026-10-12".toList).1
      (startInputUpdate "2026-01-01".toList "2026-03-01".toList
        "2026-03-05".toList "2026-10-12".toList).2 "2026-10-12".toList :=
  (analytics_range_invariant "2026-01-01".toList "2026-09-01".toList
      "2026-03-01".toList "2026-03-05".toList "2026-10-12".toList
      (by decide) ⟨by decide, by decide, by decide⟩).1

/-! ### C2: the Price Normalizer
The Python transform that builds `fact_best_market_moneyline_odds` is not
part of the source tree; the definitions below are modelled from §4.1 and
§3 of the spec. -/

/-- Modelled from the spec: one raw per-source quote for one event
(`source_book`, side, American price, observation timestamp). -/
structure Quote where
  book : List Char
  side : Side
  price : ℤ
  observedAt : ℕ
deriving DecidableEq, Repr

/-- Modelled from the spec: the monotonic upsert guarding a BestPriceFact.
Quotes with price 0 are rejected; a fact is created when absent and
replaced only when the new payout multiplier strictly exceeds the stored
one, so a worse observation never evicts a recorded better price. -/
def upsertBest (cur : Option Quote) (q : Quote) : Option Quote :=
  if q.price = 0 then cur
  else
    match cur with
    | none => some q
    | some c =>
        if americanToDec c.price < americanToDec q.price then some q else cur

/-- Modelled from the spec: per-side best-price selection of the Price
Normalizer over the quotes of one event. -/
def bestForSide (s : Side) (qs : List Quote) : Option Quote :=
  (qs.filter (fun q => q.side == s)).foldl upsertBest none

theorem upsertBest_none_eq (q : Quote) :
    upsertBest none q = if q.price = 0 then none else some q := by
  unfold upsertBest; split_ifs <;> rfl

theorem upsertBest_some_eq (c q : Quote) :
    upsertBest (some c) q =
      if q.price = 0 then some c
      else if americanToDec c.price < americanToDec q.price then some q
      else some c := by
  unfold upsertBest
  rcases eq_or_ne q.price 0 with h0 | h0
  · simp only [if_pos h0]
  · simp only [if_neg h0]

theorem foldl_upsert_some (l : List Quote) : ∀ {m : Quote},
    ∃ c, List.foldl upsertBest (some m) l = some c ∧
      americanToDec m.price ≤ americanToDec c.price := by
  induction l with
  | nil => intro m; exact ⟨m, rfl, le_refl _⟩
  | cons q l ih =>
    intro m
    rw [List.foldl_cons, upsertBest_some_eq]
    split_ifs with h0 h1
    · exact ih
    · obtain ⟨c, hc, hle⟩ := ih (m := q)
      exact ⟨c, hc, le_trans (le_of_lt h1) hle⟩
    · exact ih

theorem foldl_upsert_mem (l : List Quote) : ∀ {acc : Option Quote} {c : Quote},
    List.foldl upsertBest acc l = some c →
    acc = some c ∨ (c ∈ l ∧ c.price ≠ 0) := by
  induction l with
  | nil => intro acc c h; exact Or.inl h
  | cons q l ih =>
    intro acc c h
    rw [List.foldl_cons] at h
    rcases ih h with h' | h'
    · cases acc with
      | none =>
        rw [upsertBest_none_eq] at h'
        split_ifs at h' with h0
        injection h' with hqc
        subst hqc
        exact Or.inr ⟨List.mem_cons_self _ _, h0⟩
      | some c0 =>
        rw [upsertBest_some_eq] at h'
        split_ifs at h' with h0 h1
        · exact Or.inl h'
        · injection h' with hqc
          subst hqc
          exact Or.inr ⟨List.mem_cons_self _ _, h0⟩
        · exact Or.inl h'
    · exact Or.inr ⟨List.mem_cons_of_mem _ h'.1, h'.2⟩

theorem foldl_upsert_max (l : List Quote) : ∀ {acc : Option Quote} {c : Quote},
    List.foldl upsertBest acc l = some c →
    ∀ q ∈ l, q.price ≠ 0 →
      americanToDec q.price ≤ americanToDec c.price := by
  induction l with
  | nil => intro acc c _ q hq; simp at hq
  | cons q0 l ih =>
    intro acc c h q hq hq0
    rw [List.foldl_cons] at h
    rcases List.mem_cons.mp hq with rfl | hmem
    · have hstep : ∃ m, upsertBest acc q = some m ∧
          americanToDec q.price ≤ americanToDec m.price := by
        cases acc with
        | none =>
          rw [upsertBest_none_eq, if_neg hq0]
          exact ⟨q, rfl, le_refl _⟩
        | some c0 =>
          rw [upsertBest_some_eq, if_neg hq0]
          split_ifs with h1
          · exact ⟨q, rfl, le_refl _⟩
          · exact ⟨c0, rfl, le_of_not_lt h1⟩
      obtain ⟨m, hm, hle⟩ := hstep
      rw [hm] at h
      obtain ⟨c', hc', hle'⟩ := foldl_upsert_some l (m := m)
      rw [h] at hc'
      injection hc' with hcc
      exact le_trans hle (hcc ▸ hle')
    · exact ih h q hmem hq0

theorem foldl_upsert_keep (l : List Quote) : ∀ {c : Quote},
    (∀ q ∈ l, q.price ≠ 0 →
      ¬ americanToDec c.price < americanToDec q.price) →
    List.foldl upsertBest (some c) l = some c := by
  induction l with
  | nil => intro c _; rfl
  | cons q l ih =>
    intro c hall
    rw [List.foldl_cons, upsertBest_some_eq]
    split_ifs with h0 h1
    · exact ih fun q' hq' => hall q' (List.mem_cons_of_mem _ hq')
    · exact absurd h1 (hall q (List.mem_cons_self _ _) h0)
    · exact ih fun q' hq' => hall q' (List.mem_cons_of_mem _ hq')

theorem foldl_upsert_none (l : List Quote) : ∀ {acc : Option Quote},
    List.foldl upsertBest acc l = none →
    acc = none ∧ ∀ q ∈ l, q.price = 0 := by
  induction l with
  | nil => intro acc h; exact ⟨h, by simp⟩
  | cons q l ih =>
    intro acc h
    rw [List.foldl_cons] at h
    obtain ⟨h1, h2⟩ := ih h
    cases acc with
    | none =>
      rw [upsertBest_none_eq] at h1
      split_ifs at h1 with h0
      refine ⟨rfl, fun q' hq' => ?_⟩
      rcases List.mem_cons.mp hq' with rfl | hm
      · exact h0
      · exact h2 q' hm
    | some c0 =>
      rw [upsertBest_some_eq] at h1
      split_ifs at h1

theorem bestForSide_eq_some {s : Side} {qs : List Quote} {c : Quote}
    (h : bestForSide s qs = some c) :
    c ∈ qs ∧ c.side = s ∧ c.price ≠ 0 := by
  unfold bestForSide at h
  rcases foldl_upsert_mem _ h with h' | h'
  · cases h'
  · obtain ⟨hm, hp⟩ := h'
    obtain ⟨hq, hs'⟩ := List.mem_filter.mp hm
    exact ⟨hq, by simpa using hs', hp⟩

theorem bestForSide_max {s : Side} {qs : List Quote} {c : Quote}
    (h : bestForSide s qs = some c) :
    ∀ q ∈ qs, q.side = s → q.price ≠ 0 →
      americanToDec q.price ≤ americanToDec c.price := by
  intro q hq hside hp
  unfold bestForSide at h
  exact foldl_upsert_max _ h q (List.mem_filter.mpr ⟨hq, by simp [hside]⟩) hp

theorem bestForSide_eq_none {s : Side} {qs : List Quote}
    (h : bestForSide s qs = none) :
    ∀ q ∈ qs, q.side = s → q.price = 0 := by
  intro q hq hside
  unfold bestForSide at h
  exact (foldl_upsert_none _ h).2 q (List.mem_filter.mpr ⟨hq, by simp [hside]⟩)

/-- C2 (amended): the Price Normalizer converts American prices to decimal
payout multipliers by the spec's formula, stores per side a quote with the
highest multiplier, never lets an observation that does not strictly
exceed the stored multiplier replace it, is idempotent under replay, and
stores an ingestion-order-independent best multiplier; the stored best
price itself is order-independent provided no two valid quotes of the side
carry equal multipliers with different prices. -/
theorem bestForSide_spec (s : Side) (qs qs' : List Quote)
    (hperm : qs'.Perm qs) :
    (∀ p : ℤ, (0 ≤ p → americanToDec p = 1 + (p : ℚ) / 100) ∧
      (p < 0 → americanToDec p = 1 + 100 / (-(p : ℚ)))) ∧
    (∀ c, bestForSide s qs = some c →
      c ∈ qs ∧ c.side = s ∧ c.price ≠ 0 ∧
        ∀ q ∈ qs, q.side = s → q.price ≠ 0 →
          americanToDec q.price ≤ americanToDec c.price) ∧
    (∀ c q, ¬ americanToDec c.price < americanToDec q.price →
      upsertBest (some c) q = some c) ∧
    (bestForSide s (qs ++ qs) = bestForSide s qs) ∧
    ((bestForSide s qs').map (fun q => americanToDec q.price) =
      (bestForSide s qs).map (fun q => americanToDec q.price)) ∧
    ((∀ q1 ∈ qs, ∀ q2 ∈ qs, q1.side = s → q2.side = s → q1.price ≠ 0 →
        q2.price ≠ 0 → americanToDec q1.price = americanToDec q2.price →
        q1.price = q2.price) →
      (bestForSide s qs').map Quote.price =
        (bestForSide s qs).map Quote.price) := by
  have hmain : ∀ c, bestForSide s qs = some c →
      c ∈ qs ∧ c.side = s ∧ c.price ≠ 0 ∧
        ∀ q ∈ qs, q.side = s → q.price ≠ 0 →
          americanToDec q.price ≤ americanToDec c.price := by
    intro c h
    obtain ⟨hq, hside, hp⟩ := bestForSide_eq_some h
    exact ⟨hq, hside, hp, bestForSide_max h⟩
  have hreplay : bestForSide s (qs ++ qs) = bestForSide s qs := by
    unfold bestForSide
    rw [List.filter_append, List.foldl_append]
    cases hb : List.foldl upsertBest none (qs.filter fun q => q.side == s) with
    | none => exact hb
    | some c =>
      apply foldl_upsert_keep
      intro q hq hq0
      exact not_lt.mpr (foldl_upsert_max _ hb q hq hq0)
  have hmultinv : (bestForSide s qs').map (fun q => americanToDec q.price) =
      (bestForSide s qs).map (fun q => americanToDec q.price) := by
    cases h1 : bestForSide s qs' with
    | none =>
      cases h2 : bestForSide s qs with
      | none => rfl
      | some c =>
        obtain ⟨hq, hside, hp⟩ := bestForSide_eq_some h2
        exact absurd (bestForSide_eq_none h1 c (hperm.mem_iff.mpr hq) hside) hp
    | some c =>
      cases h2 : bestForSide s qs with
      | none =>
        obtain ⟨hq, hside, hp⟩ := bestForSide_eq_some h1
        exact absurd (bestForSide_eq_none h2 c (hperm.mem_iff.mp hq) hside) hp
      | some c' =>
        obtain ⟨hq, hside, hp⟩ := bestForSide_eq_some h1
        obtain ⟨hq', hside', hp'⟩ := bestForSide_eq_some h2
        have hle : americanToDec c.price ≤ americanToDec c'.price :=
          bestForSide_max h2 c (hperm.mem_iff.mp hq) hside hp
        have hge : americanToDec c'.price ≤ americanToDec c.price :=
          bestForSide_max h1 c' (hperm.mem_iff.mpr hq') hside' hp'
        simp [le_antisymm hge hle]
  refine ⟨?_, hmain, ?_, hreplay, hmultinv, ?_⟩
  · intro p
    exact ⟨fun hp => americanToDec_nonneg_eq hp, fun hp => americanToDec_neg_eq hp⟩
  · intro c q hlt
    rw [upsertBest_some_eq]
    rcases eq_or_ne q.price 0 with h0 | h0
    · rw [if_pos h0]
    · rw [if_neg h0, if_neg hlt]
  · intro hdist
    cases h1 : bestForSide s qs' with
    | none =>
      cases h2 : bestForSide s qs with
      | none => rfl
      | some c =>
        obtain ⟨hq, hside, hp⟩ := bestForSide_eq_some h2
        exact absurd (bestForSide_eq_none h1 c (hperm.mem_iff.mpr hq) hside) hp
    | some c =>
      cases h2 : bestForSide s qs with
      | none =>
        obtain ⟨hq, hside, hp⟩ := bestForSide_eq_some h1
        exact absurd (bestForSide_eq_none h2 c (hperm.mem_iff.mp hq) hside) hp
      | some c' =>
        obtain ⟨hq, hside, hp⟩ := bestForSide_eq_some h1
        obtain ⟨hq', hside', hp'⟩ := bestForSide_eq_some h2
        have hle : americanToDec c.price ≤ americanToDec c'.price :=
          bestForSide_max h2 c (hperm.mem_iff.mp hq) hside hp
        have hge : americanToDec c'.price ≤ americanToDec c.price :=
          bestForSide_max h1 c' (hperm.mem_iff.mpr hq') hside' hp'
        have := hdist c (hperm.mem_iff.mp hq) c' hq' hside hside' hp hp'
          (le_antisymm hle hge)
        simp [this]

/-- Quote of −100 (multiplier 2) on home, observed first. -/
def c2qEven1 : Quote := ⟨"bookA".toList, Side.home, -100, 0⟩

/-- Quote of +100 (multiplier 2) on home, observed second. -/
def c2qEven2 : Quote := ⟨"bookB".toList, Side.home, 100, 1⟩

/-- C2 as stated is false: the quotes −100 and +100 have equal payout
multipliers, so neither replaces the other, and the stored best price
depends on the ingestion order (−100 first stores −100, +100 first
stores +100). -/
theorem bestForSide_order_counterexample :
    (bestForSide Side.home [c2qEven1, c2qEven2]).map Quote.price = some (-100) ∧
    (bestForSide Side.home [c2qEven2, c2qEven1]).map Quote.price = some 100 := by
  constructor <;>
    norm_num [bestForSide, upsertBest, c2qEven1, c2qEven2, americanToDec,
      List.filter, List.foldl]

/-- Quote of −150 on away. -/
def c2qW1 : Quote := ⟨"bookA".toList, Side.away, -150, 0⟩

/-- Quote of −140 on away. -/
def c2qW2 : Quote := ⟨"bookB".toList, Side.away, -140, 1⟩

theorem bestForSide_spec_witness :
    bestForSide Side.away ([c2qW1, c2qW2] ++ [c2qW1, c2qW2]) =
      bestForSide Side.away [c2qW1, c2qW2] :=
  (bestForSide_spec Side.away [c2qW1, c2qW2] [c2qW2, c2qW1]
    (List.Perm.swap _ _ _)).2.2.2.1

/-! ### C3: the Identity Resolver
The Python transform `build_game_id_map` is not part of the source tree;
the definitions below are modelled from §4.2 of the spec. -/

/-- Modelled from the spec: a market-side event (odds stream). -/
structure MarketEvent where
  id : ℕ
  home : List Char
  away : List Char
  day : List Char
deriving DecidableEq, Repr

/-- Modelled from the spec: a results-side event record. -/
structure ResultRecord where
  id : ℕ
  home : List Char
  away : List Char
  day : List Char
deriving DecidableEq, Repr

/-- Modelled from the spec: exact case-insensitive name equality. -/
def nameMatch (x y : List Char) : Bool :=
  x.map Char.toLower == y.map Char.toLower

/-- Modelled from the spec: a market event matches a result record iff
home matches home, away matches away (order-sensitive), and the scheduled
dates fall on the same calendar day. -/
def eventMatches (m : MarketEvent) (r : ResultRecord) : Bool :=
  nameMatch m.home r.home && nameMatch m.away r.away && m.day == r.day

/-- Modelled from the spec: the Identity Resolver links each market event
to its unique matching result record; events with zero or more than one
match are returned unlinked.  The first component is the list of
`(market_event_id, results_event_id)` links, the second the unlinked
market event ids. -/
def resolveLinks (ms : List MarketEvent) (rs : List ResultRecord) :
    List (ℕ × ℕ) × List ℕ :=
  ms.foldr
    (fun m acc =>
      match rs.filter (eventMatches m) with
      | [r] => ((m.id, r.id) :: acc.1, acc.2)
      | _ => (acc.1, m.id :: acc.2))
    ([], [])

theorem resolveLinks_sound (ms : List MarketEvent) (rs : List ResultRecord) :
    ∀ p ∈ (resolveLinks ms rs).1, ∃ m ∈ ms, ∃ r ∈ rs,
      p = (m.id, r.id) ∧ eventMatches m r = true ∧
        rs.filter (eventMatches m) = [r] := by
  induction ms with
  | nil => intro p hp; simp [resolveLinks] at hp
  | cons m ms ih =>
    intro p hp
    unfold resolveLinks at hp
    rw [List.foldr_cons] at hp
    rcases hf : rs.filter (eventMatches m) with _ | ⟨r, rest⟩
    · rw [hf] at hp
      obtain ⟨m', hm', hrest⟩ := ih p (by simpa [resolveLinks] using hp)
      exact ⟨m', List.mem_cons_of_mem _ hm', hrest⟩
    · cases rest with
      | nil =>
        rw [hf] at hp
        rcases List.mem_cons.mp hp with rfl | hp'
        · refine ⟨m, List.mem_cons_self _ _, r, ?_, rfl, ?_, hf⟩
          · have : r ∈ rs.filter (eventMatches m) := by rw [hf]; exact List.mem_cons_self _ _
            exact (List.mem_filter.mp this).1
          · have : r ∈ rs.filter (eventMatches m) := by rw [hf]; exact List.mem_cons_self _ _
            exact (List.mem_filter.mp this).2
        · obtain ⟨m', hm', hrest⟩ := ih p (by simpa [resolveLinks] using hp')
          exact ⟨m', List.mem_cons_of_mem _ hm', hrest⟩
      | cons r2 rest2 =>
        rw [hf] at hp
        obtain ⟨m', hm', hrest⟩ := ih p (by simpa [resolveLinks] using hp)
        exact ⟨m', List.mem_cons_of_mem _ hm', hrest⟩

theorem resolveLinks_unlinked (ms : List MarketEvent) (rs : List ResultRecord) :
    ∀ m ∈ ms, (rs.filter (eventMatches m)).length ≠ 1 →
      m.id ∈ (resolveLinks ms rs).2 := by
  induction ms with
  | nil => intro m hm; simp at hm
  | cons m0 ms ih =>
    intro m hm hlen
    unfold resolveLinks
    rw [List.foldr_cons]
    rcases List.mem_cons.mp hm with rfl | hm'
    · rcases hf : rs.filter (eventMatches m) with _ | ⟨r, rest⟩
      · exact List.mem_cons_self _ _
      · cases rest with
        | nil => rw [hf] at hlen; simp at hlen
        | cons r2 rest2 => exact List.mem_cons_self _ _
    · have htail := ih m hm' hlen
      rcases hf : rs.filter (eventMatches m0) with _ | ⟨r, rest⟩
      · exact List.mem_cons_of_mem _ htail
      · cases rest with
        | nil => exact htail
        | cons r2 rest2 => exact List.mem_cons_of_mem _ htail

theorem eventMatches_iff {m : MarketEvent} {r : ResultRecord} :
    eventMatches m r = true ↔
      (m.home.map Char.toLower = r.home.map Char.toLower ∧
        m.away.map Char.toLower = r.away.map Char.toLower ∧
        m.day = r.day) := by
  simp [eventMatches, nameMatch, and_assoc]

/-- C3 (amended): the link relation of the Identity Resolver is injective
from market events to results events, a pair is linked only if names and
calendar day match, and zero or ambiguous matches remain unlinked; it is
injective on the results side as well provided no two market events of the
batch share case-insensitive team names and calendar day (the spec's
per-market-event rule cannot prevent two such duplicates from linking to
the same result record). -/
theorem resolveLinks_injective (ms : List MarketEvent) (rs : List ResultRecord)
    (hmsid : (ms.map MarketEvent.id).Nodup)
    (hrsid : (rs.map ResultRecord.id).Nodup)
    (hkey : ∀ m1 ∈ ms, ∀ m2 ∈ ms,
      m1.home.map Char.toLower = m2.home.map Char.toLower →
      m1.away.map Char.toLower = m2.away.map Char.toLower →
      m1.day = m2.day → m1 = m2) :
    (∀ p ∈ (resolveLinks ms rs).1, ∃ m ∈ ms, ∃ r ∈ rs,
      p = (m.id, r.id) ∧ eventMatches m r = true) ∧
    (∀ p ∈ (resolveLinks ms rs).1, ∀ q ∈ (resolveLinks ms rs).1,
      p.1 = q.1 → p = q) ∧
    (∀ p ∈ (resolveLinks ms rs).1, ∀ q ∈ (resolveLinks ms rs).1,
      p.2 = q.2 → p = q) ∧
    (∀ m ∈ ms, (rs.filter (eventMatches m)).length ≠ 1 →
      m.id ∈ (resolveLinks ms rs).2 ∧
        m.id ∉ (resolveLinks ms rs).1.map Prod.fst) := by
  have hidm : ∀ ⦃x⦄, x ∈ ms → ∀ ⦃y⦄, y ∈ ms → x.id = y.id → x = y :=
    List.inj_on_of_nodup_map hmsid
  have hidr : ∀ ⦃x⦄, x ∈ rs → ∀ ⦃y⦄, y ∈ rs → x.id = y.id → x = y :=
    List.inj_on_of_nodup_map hrsid
  refine ⟨?_, ?_, ?_, ?_⟩
  · intro p hp
    obtain ⟨m, hm, r, hr, hpe, hmatch, -⟩ := resolveLinks_sound ms rs p hp
    exact ⟨m, hm, r, hr, hpe, hmatch⟩
  · intro p hp q hq h1
    obtain ⟨m1, hm1, r1, hr1, hpe, hmatch1, hfilt1⟩ := resolveLinks_sound ms rs p hp
    obtain ⟨m2, hm2, r2, hr2, hqe, hmatch2, hfilt2⟩ := resolveLinks_sound ms rs q hq
    have hm12 : m1 = m2 := by
      apply hidm hm1 hm2
      rw [hpe, hqe] at h1
      exact h1
    subst hm12
    rw [hfilt1] at hfilt2
    injection hfilt2 with hr12
    rw [hpe, hqe, hr12]
  · intro p hp q hq h2
    obtain ⟨m1, hm1, r1, hr1, hpe, hmatch1, hfilt1⟩ := resolveLinks_sound ms rs p hp
    obtain ⟨m2, hm2, r2, hr2, hqe, hmatch2, hfilt2⟩ := resolveLinks_sound ms rs q hq
    have hr12 : r1 = r2 := by
      apply hidr hr1 hr2
      rw [hpe, hqe] at h2
      exact h2
    subst hr12
    obtain ⟨hh1, ha1, hd1⟩ := eventMatches_iff.mp hmatch1
    obtain ⟨hh2, ha2, hd2⟩ := eventMatches_iff.mp hmatch2
    have hm12 : m1 = m2 :=
      hkey m1 hm1 m2 hm2 (hh1.trans hh2.symm) (ha1.trans ha2.symm)
        (hd1.trans hd2.symm)
    rw [hpe, hqe, hm12]
  · intro m hm hlen
    refine ⟨resolveLinks_unlinked ms rs m hm hlen, ?_⟩
    intro hmem
    obtain ⟨p, hp, hpid⟩ := List.mem_map.mp hmem
    obtain ⟨m', hm', r', hr', hpe, hmatch', hfilt'⟩ := resolveLinks_sound ms rs p hp
    have hmm : m' = m := by
      apply hidm hm' hm
      rw [hpe] at hpid
      exact hpid
    subst hmm
    rw [hfilt'] at hlen
    simp at hlen

/-- Two distinct market events with identical team names and day. -/
def c3mDup1 : MarketEvent :=
  ⟨1, "knicks".toList, "celtics".toList, "2025-03-01".toList⟩

/-- Second duplicate market event. -/
def c3mDup2 : MarketEvent :=
  ⟨2, "knicks".toList, "celtics".toList, "2025-03-01".toList⟩

/-- The single result record both duplicates match. -/
def c3rDup : ResultRecord :=
  ⟨7, "Knicks".toList, "Celtics".toList, "2025-03-01".toList⟩

/-- C3 as stated is false: two market events sharing team names and day
each have the same unique matching result record, so the resolver links
both to results event 7 — the link relation is not injective on the
results side. -/
theorem resolveLinks_claim_counterexample :
    (resolveLinks [c3mDup1, c3mDup2] [c3rDup]).1 = [(1, 7), (2, 7)] := by
  decide

/-- Market event for the witness. -/
def c3mW : MarketEvent :=
  ⟨1, "knicks".toList, "celtics".toList, "2025-03-01".toList⟩

/-- Matching result record for the witness. -/
def c3rW : ResultRecord :=
  ⟨7, "Knicks".toList, "Celtics".toList, "2025-03-01".toList⟩

theorem resolveLinks_injective_witness :
    ∃ m ∈ [c3mW], ∃ r ∈ [c3rW],
      ((1 : ℕ), (7 : ℕ)) = (m.id, r.id) ∧ eventMatches m r = true :=
  (resolveLinks_injective [c3mW] [c3rW] (by decide) (by decide) (by decide)).1
    (1, 7) (by decide)

/-! ### C4: the strategy equity curve
The Python analytics engine behind `/api/strategies/equity` is not part of
the source tree; the definitions below are modelled from §4.4 and §3 of
the spec (EquityPoint, `StrategyEquityPoint` in `src/web/src/lib/api.ts`). -/

/-- Modelled from the spec: one decided StrategyBet — scheduled start
time, secondary identity key, and the $1-stake profit. -/
structure DecidedBet where
  startTime : List Char
  key : List Char
  profit : ℚ
deriving DecidableEq, Repr

/-- Modelled from the spec: the equity-curve ordering — scheduled start
time ascending with the identity key as deterministic tie-break. -/
def betOrder (a b : DecidedBet) : Prop :=
  a.startTime < b.startTime ∨ (a.startTime = b.startTime ∧ a.key ≤ b.key)

instance : DecidableRel betOrder := fun a b => by
  unfold betOrder; infer_instance

instance : IsTotal DecidedBet betOrder :=
  ⟨fun a b => by
    rcases lt_trichotomy a.startTime b.startTime with h | h | h
    · exact Or.inl (Or.inl h)
    · rcases le_total a.key b.key with hk | hk
      · exact Or.inl (Or.inr ⟨h, hk⟩)
      · exact Or.inr (Or.inr ⟨h.symm, hk⟩)
    · exact Or.inr (Or.inl h)⟩

instance : IsTrans DecidedBet betOrder :=
  ⟨fun a b c hab hbc => by
    rcases hab with h1 | ⟨h1, hk1⟩ <;> rcases hbc with h2 | ⟨h2, hk2⟩
    · exact Or.inl (h1.trans h2)
    · exact Or.inl (lt_of_lt_of_eq h1 h2)
    · exact Or.inl (lt_of_eq_of_lt h1 h2)
    · exact Or.inr ⟨h1.trans h2, hk1.trans hk2⟩⟩

/-- Modelled from the spec: the deterministic (stable) sort of decided
bets that orders the equity curve. -/
def sortBets (bets : List DecidedBet) : List DecidedBet :=
  List.insertionSort betOrder bets

/-- Equity point shape, from `StrategyEquityPoint` in
`src/web/src/lib/api.ts`. -/
structure EquityPoint where
  game_index : ℕ
  commence_time : List Char
  key : List Char
  bet_profit : ℚ
  cum_profit : ℚ
  cum_roi : ℚ
deriving DecidableEq, Repr

/-- Default equity point (used only as the `getD` fallback). -/
def dfltPoint : EquityPoint := ⟨0, [], [], 0, 0, 0⟩

/-- Modelled from the spec: running accumulation of the equity curve —
1-based index, running cumulative profit, cumulative ROI = cumulative
profit divided by the number of bets so far. -/
def equityAux : ℕ → ℚ → List DecidedBet → List EquityPoint
  | _, _, [] => []
  | i, acc, b :: bs =>
    { game_index := i + 1
      commence_time := b.startTime
      key := b.key
      bet_profit := b.profit
      cum_profit := acc + b.profit
      cum_roi := (acc + b.profit) / ((i : ℚ) + 1) } ::
      equityAux (i + 1) (acc + b.profit) bs

/-- Modelled from the spec: the equity curve of a strategy over the
decided bets of a date range. -/
def equityCurve (bets : List DecidedBet) : List EquityPoint :=
  equityAux 0 0 (sortBets bets)

theorem equityAux_length (l : List DecidedBet) : ∀ (i : ℕ) (acc : ℚ),
    (equityAux i acc l).length = l.length := by
  induction l with
  | nil => intro i acc; rfl
  | cons b bs ih => intro i acc; simp [equityAux, ih]

theorem equityAux_map (l : List DecidedBet) : ∀ (i : ℕ) (acc : ℚ),
    (equityAux i acc l).map
      (fun p => (⟨p.commence_time, p.key, p.bet_profit⟩ : DecidedBet)) = l := by
  induction l with
  | nil => intro i acc; rfl
  | cons b bs ih => intro i acc; simp [equityAux, ih]

theorem equityAux_getD (l : List DecidedBet) : ∀ (j i : ℕ) (acc : ℚ),
    j < l.length →
    (equityAux i acc l).getD j dfltPoint =
      { game_index := i + j + 1
        commence_time := (l.getD j ⟨[], [], 0⟩).startTime
        key := (l.getD j ⟨[], [], 0⟩).key
        bet_profit := (l.getD j ⟨[], [], 0⟩).profit
        cum_profit := acc + ((l.take (j + 1)).map DecidedBet.profit).sum
        cum_roi := (acc + ((l.take (j + 1)).map DecidedBet.profit).sum) /
          (((i + j : ℕ) : ℚ) + 1) } := by
  induction l with
  | nil => intro j i acc h; simp at h
  | cons b bs ih =>
    intro j i acc h
    cases j with
    | zero => simp [equityAux]
    | succ j' =>
      have h' : j' < bs.length := by simpa using h
      have hstep : (equityAux i acc (b :: bs)).getD (j' + 1) dfltPoint =
          (equityAux (i + 1) (acc + b.profit) bs).getD j' dfltPoint := rfl
      rw [hstep, ih j' (i + 1) (acc + b.profit) h']
      have hn : ((i + 1 + j' : ℕ) : ℚ) = ((i + (j' + 1) : ℕ) : ℚ) := by
        push_cast; ring
      simp only [EquityPoint.mk.injEq, hn, List.getD_cons_succ,
        List.take_succ_cons, List.map_cons, List.sum_cons]
      refine ⟨by omega, trivial, trivial, trivial, by ring, by ring⟩

/-- C4: equity points are exactly the decided bets ordered by scheduled
start time with the identity-key tie-break (a permutation of the input,
sorted, mapped one-to-one onto the points), and at every 0-based point
position `i` the index is `i+1`, the cumulative profit is the sum of
`bet_profit` over the first `i+1` points, and the cumulative ROI is the
cumulative profit divided by `i+1`. -/
theorem equityCurve_spec (bets : List DecidedBet) :
    ((equityCurve bets).map
        (fun p => (⟨p.commence_time, p.key, p.bet_profit⟩ : DecidedBet)) =
      sortBets bets) ∧
    (sortBets bets).Perm bets ∧
    List.Sorted betOrder (sortBets bets) ∧
    (∀ i, i < (equityCurve bets).length →
      ((equityCurve bets).getD i dfltPoint).game_index = i + 1 ∧
      ((equityCurve bets).getD i dfltPoint).cum_profit =
        (((sortBets bets).take (i + 1)).map DecidedBet.profit).sum ∧
      ((equityCurve bets).getD i dfltPoint).cum_roi =
        ((equityCurve bets).getD i dfltPoint).cum_profit / ((i : ℚ) + 1)) := by
  refine ⟨equityAux_map _ 0 0, List.perm_insertionSort _ _,
    List.sorted_insertionSort _ _, ?_⟩
  intro i hi
  have hi' : i < (sortBets bets).length := by
    rw [← equityAux_length (sortBets bets) 0 0]
    exact hi
  unfold equityCurve
  rw [equityAux_getD (sortBets bets) i 0 0 hi']
  refine ⟨by simp, by simp, ?_⟩
  have hz : ((0 + i : ℕ) : ℚ) = (i : ℚ) := by push_cast; ring
  simp [hz]

/-- Decided bet for the witness: earlier start, profit +1. -/
def c4b1 : DecidedBet := ⟨"2026-03-01T00:10:00Z".toList, "e1".toList, 1⟩

/-- Decided bet for the witness: later start, profit −1. -/
def c4b2 : DecidedBet := ⟨"2026-03-01T02:30:00Z".toList, "e2".toList, -1⟩

theorem equityCurve_spec_witness :
    ((equityCurve [c4b1, c4b2]).getD 1 dfltPoint).game_index = 1 + 1 ∧
    ((equityCurve [c4b1, c4b2]).getD 1 dfltPoint).cum_profit =
      (((sortBets [c4b1, c4b2]).take (1 + 1)).map DecidedBet.profit).sum ∧
    ((equityCurve [c4b1, c4b2]).getD 1 dfltPoint).cum_roi =
      ((equityCurve [c4b1, c4b2]).getD 1 dfltPoint).cum_profit / ((1 : ℚ) + 1) :=
  (equityCurve_spec [c4b1, c4b2]).2.2.2 1 (by decide)

/-! ### C5: ROI-by-implied-probability buckets
The Python analytics engine behind `/api/strategies/roi-buckets` is not
part of the source tree; the definitions below are modelled from §4.4 of
the spec (CalibrationBucket, `getStrategyRoiBuckets` in
`src/web/src/lib/api.ts`). -/

/-- Modelled from the spec: implied win probability of a picked side —
the reciprocal of the decimal payout multiplier (vig-inclusive). -/
def impliedProb (p : ℤ) : ℚ := 1 / americanToDec p

/-- Modelled from the spec: one decided bet entering the bucket tallies —
the American price of the picked side and whether the pick won. -/
structure BucketBet where
  price : ℤ
  won : Bool
deriving DecidableEq, Repr

/-- Modelled from the spec: lower edge of bucket `j` of the fixed-width
partition starting at `pMin`. -/
def bucketLo (pMin step : ℚ) (j : ℕ) : ℚ := pMin + j * step

/-- Modelled from the spec: upper edge of bucket `j`. -/
def bucketHi (pMin step : ℚ) (j : ℕ) : ℚ := pMin + (j + 1) * step

/-- Modelled from the spec: the bucket of the partition of
`[pMin, pMin + n·step)` into `n` half-open width-`step` intervals that
contains `x`, or `none` when `x` is out of range. -/
def bucketIdx (pMin step : ℚ) (n : ℕ) (x : ℚ) : Option ℕ :=
  if pMin ≤ x ∧ x < pMin + n * step
  then some (⌊(x - pMin) / step⌋.toNat)
  else none

/-- Modelled from the spec: number of bets tallied in bucket `j`. -/
def bucketCount (pMin step : ℚ) (n : ℕ) (bets : List BucketBet) (j : ℕ) : ℕ :=
  bets.countP (fun b => bucketIdx pMin step n (impliedProb b.price) == some j)

/-- Modelled from the spec: number of bets outside the bucket window. -/
def outOfRangeCount (pMin step : ℚ) (n : ℕ) (bets : List BucketBet) : ℕ :=
  bets.countP (fun b => bucketIdx pMin step n (impliedProb b.price) == none)

theorem bucketIdx_mem {pMin step x : ℚ} {n j : ℕ} (hstep : 0 < step)
    (h : bucketIdx pMin step n x = some j) :
    j < n ∧ bucketLo pMin step j ≤ x ∧ x < bucketHi pMin step j := by
  unfold bucketIdx at h
  split_ifs at h with hx
  injection h with hj
  obtain ⟨hx1, hx2⟩ := hx
  have hy0 : (0 : ℚ) ≤ (x - pMin) / step := div_nonneg (by linarith) hstep.le
  have hfl0 : 0 ≤ ⌊(x - pMin) / step⌋ := Int.floor_nonneg.mpr hy0
  have hjq : ((j : ℤ) : ℚ) = ((⌊(x - pMin) / step⌋ : ℤ) : ℚ) := by
    rw [← hj]
    exact_mod_cast congrArg (fun z : ℤ => (z : ℚ)) (Int.toNat_of_nonneg hfl0)
  have hfle : ((j : ℚ)) ≤ (x - pMin) / step := by
    have := Int.floor_le ((x - pMin) / step)
    calc ((j : ℚ)) = ((⌊(x - pMin) / step⌋ : ℤ) : ℚ) := by exact_mod_cast hjq
      _ ≤ (x - pMin) / step := this
  have hflt : (x - pMin) / step < (j : ℚ) + 1 := by
    have := Int.lt_floor_add_one ((x - pMin) / step)
    calc (x - pMin) / step < ((⌊(x - pMin) / step⌋ : ℤ) : ℚ) + 1 := this
      _ = ((j : ℚ)) + 1 := by rw [← hjq]; norm_cast
  refine ⟨?_, ?_, ?_⟩
  · have hyn : (x - pMin) / step < (n : ℚ) := by
      rw [div_lt_iff₀ hstep]
      linarith
    have : (j : ℚ) < (n : ℚ) := lt_of_le_of_lt hfle hyn
    exact_mod_cast this
  · unfold bucketLo
    have := (le_div_iff₀ hstep).mp hfle
    linarith
  · unfold bucketHi
    have := (div_lt_iff₀ hstep).mp hflt
    nlinarith [this]

theorem bucketCounts_sum (pMin step : ℚ) (n : ℕ) (hstep : 0 < step)
    (bets : List BucketBet) :
    (∑ j ∈ Finset.range n, bucketCount pMin step n bets j) +
      outOfRangeCount pMin step n bets = bets.length := by
  induction bets with
  | nil => simp [bucketCount, outOfRangeCount]
  | cons b bs ih =>
    rcases hb : bucketIdx pMin step n (impliedProb b.price) with _ | j0
    · have h1 : ∀ j ∈ Finset.range n,
          bucketCount pMin step n (b :: bs) j = bucketCount pMin step n bs j := by
        intro j _
        simp [bucketCount, List.countP_cons, hb]
      have h2 : outOfRangeCount pMin step n (b :: bs) =
          outOfRangeCount pMin step n bs + 1 := by
        simp [outOfRangeCount, List.countP_cons, hb]
      have hsum : (∑ j ∈ Finset.range n, bucketCount pMin step n (b :: bs) j) =
          ∑ j ∈ Finset.range n, bucketCount pMin step n bs j :=
        Finset.sum_congr rfl h1
      rw [hsum, h2, List.length_cons]
      omega
    · have hj0 : j0 < n := (bucketIdx_mem hstep hb).1
      have h1 : ∀ j ∈ Finset.range n,
          bucketCount pMin step n (b :: bs) j =
            bucketCount pMin step n bs j + (if j = j0 then 1 else 0) := by
        intro j _
        rcases eq_or_ne j j0 with rfl | hj
        · simp [bucketCount, List.countP_cons, hb]
        · simp [bucketCount, List.countP_cons, hb, Ne.symm hj, hj]
      have h2 : outOfRangeCount pMin step n (b :: bs) =
          outOfRangeCount pMin step n bs := by
        simp [outOfRangeCount, List.countP_cons, hb]
      have hsum : (∑ j ∈ Finset.range n, bucketCount pMin step n (b :: bs) j) =
          (∑ j ∈ Finset.range n, bucketCount pMin step n bs j) +
            ∑ j ∈ Finset.range n, (if j = j0 then 1 else 0) :=
        (Finset.sum_congr rfl h1).trans Finset.sum_add_distrib
      rw [hsum, Finset.sum_ite_eq' (Finset.range n) j0 (fun _ => 1), h2,
        List.length_cons]
      simp only [Finset.mem_range.mpr hj0, if_pos]
      omega

/-- C5: the ROI buckets form a fixed-width partition of
`[p_min, p_min + n·step)` into half-open intervals (`hi j = lo (j+1)`),
every in-range bet is tallied in exactly the bucket whose interval
contains the implied probability `1 / multiplier` of its picked side,
out-of-range bets are tallied in none, and the bucket counts plus the
out-of-range count sum to the total decided-bet count. -/
theorem roiBuckets_spec (pMin step : ℚ) (n : ℕ) (hstep : 0 < step)
    (bets : List BucketBet) :
    (∀ j, bucketHi pMin step j = bucketLo pMin step (j + 1)) ∧
    (∀ x j, bucketIdx pMin step n x = some j →
      j < n ∧ bucketLo pMin step j ≤ x ∧ x < bucketHi pMin step j) ∧
    (∀ x, bucketIdx pMin step n x = none ↔
      ¬(pMin ≤ x ∧ x < pMin + n * step)) ∧
    ((∑ j ∈ Finset.range n, bucketCount pMin step n bets j) +
      outOfRangeCount pMin step n bets = bets.length) := by
  refine ⟨?_, fun x j h => bucketIdx_mem hstep h, ?_,
    bucketCounts_sum pMin step n hstep bets⟩
  · intro j
    unfold bucketHi bucketLo
    push_cast
    ring
  · intro x
    unfold bucketIdx
    split_ifs with hx
    · simp [hx]
    · simp [hx]

/-- Bet at −150 (implied probability 3/5, in the default 0.40–0.80
window). -/
def c5bIn : BucketBet := ⟨-150, true⟩

/-- Bet at −500 (implied probability 5/6, outside the window). -/
def c5bOut : BucketBet := ⟨-500, false⟩

theorem roiBuckets_spec_witness :
    (∑ j ∈ Finset.range 8, bucketCount (2/5) (1/20) 8 [c5bIn, c5bOut] j) +
      outOfRangeCount (2/5) (1/20) 8 [c5bIn, c5bOut] = 2 :=
  (roiBuckets_spec (2/5) (1/20) 8 (by norm_num) [c5bIn, c5bOut]).2.2.2

/-! ### C6: pipeline stage ordering
Embedding of `EtlController` in
`src/java-api/.../api/ResultsController.java`.  Each stage job is a
blocking `restClient.post(...).retrieve()` call to the Python service, so
the call's completion precedes the next statement; a run is embedded as
the list of start/complete stage events in execution order. -/

/-- The five pipeline stages of the spec. -/
inductive Stage where
  | snapshotIngest
  | resultsIngest
  | identityLink
  | reconcile
  | analyticsRebuild
deriving DecidableEq, Repr

/-- Canonical position of a stage in the spec's stage order. -/
def Stage.idx : Stage → ℕ
  | .snapshotIngest => 0
  | .resultsIngest => 1
  | .identityLink => 2
  | .reconcile => 3
  | .analyticsRebuild => 4

/-- A stage-boundary event of a run. -/
inductive StageEv where
  | start (s : Stage)
  | complete (s : Stage)
deriving DecidableEq, Repr

/-- Request body of `/api/etl/results-refresh`
(`EtlController.ResultsRefreshRequest`). -/
structure ResultsRefreshRequest where
  dates : List (List Char)
  league : Option (List Char)
  step : Option ℚ

/-- `EtlController.resultsRefresh`: posts `espn-results-pull` (results
ingest), then `build-game-id-map` (identity link), then
`build-fact-game-results-best-market` (reconcile), then
`build-calibration-favorite` (analytics rebuild), each blocking until its
response arrives; the stage events are independent of the request body. -/
def resultsRefreshEvents (req : ResultsRefreshRequest) : List StageEv :=
  [.start .resultsIngest, .complete .resultsIngest,
   .start .identityLink, .complete .identityLink,
   .start .reconcile, .complete .reconcile,
   .start .analyticsRebuild, .complete .analyticsRebuild]

/-- `EtlController.runOddsSnapshot`: posts the single `odds-snapshot`
stage job. -/
def oddsSnapshotEvents : List StageEv :=
  [.start .snapshotIngest, .complete .snapshotIngest]

/-- The stages a run executes, in the order they are started. -/
def startedStages (t : List StageEv) : List Stage :=
  t.filterMap fun e =>
    match e with
    | .start s => some s
    | .complete _ => none

/-- A trace is stage-sequential when each started stage completes before
anything else starts. -/
def stageSequential : List StageEv → Bool
  | [] => true
  | .start s :: .complete s' :: rest => s == s' && stageSequential rest
  | _ => false

/-- The spec's canonical stage order. -/
def canonicalStages : List Stage :=
  [.snapshotIngest, .resultsIngest, .identityLink, .reconcile,
   .analyticsRebuild]

/-- C6 as stated is false: the results-refresh run never executes the
snapshot-ingest stage — its started stages are not the five canonical
stages. -/
theorem pipelineStages_claim_counterexample :
    startedStages (resultsRefreshEvents ⟨[], none, none⟩) ≠ canonicalStages ∧
    Stage.snapshotIngest ∉ startedStages (resultsRefreshEvents ⟨[], none, none⟩) := by
  decide

/-- C6 (amended): in every run triggered through the ETL controller the
executed stages are strictly increasing in the canonical stage order — no
two stages ever reorder — and each stage completes before the next stage
begins; the results-refresh run executes results-ingest, identity-link,
reconcile, analytics-rebuild in that order for every request body, while
snapshot ingest executes as its own single-stage run rather than as the
first stage of the same run. -/
theorem pipelineStages_order (req : ResultsRefreshRequest) :
    stageSequential (resultsRefreshEvents req) = true ∧
    List.Chain' (fun a b => a.idx < b.idx)
      (startedStages (resultsRefreshEvents req)) ∧
    startedStages (resultsRefreshEvents req) =
      [.resultsIngest, .identityLink, .reconcile, .analyticsRebuild] ∧
    stageSequential oddsSnapshotEvents = true ∧
    List.Chain' (fun a b => a.idx < b.idx) (startedStages oddsSnapshotEvents) ∧
    startedStages oddsSnapshotEvents = [.snapshotIngest] := by
  have hre : resultsRefreshEvents req = resultsRefreshEvents ⟨[], none, none⟩ :=
    rfl
  rw [hre]
  refine ⟨rfl, ?_, rfl, rfl, ?_, rfl⟩
  · simp [startedStages, resultsRefreshEvents, List.chain'_cons, Stage.idx]
  · simp [startedStages, oddsSnapshotEvents, List.chain'_cons, Stage.idx]

theorem pipelineStages_order_witness :
    startedStages (resultsRefreshEvents ⟨["2026-03-01".toList], none, none⟩) =
      [.resultsIngest, .identityLink, .reconcile, .analyticsRebuild] :=
  (pipelineStages_order ⟨["2026-03-01".toList], none, none⟩).2.2.1

/-! ### C7: run exclusivity
The run lock lives in the Python jobs service, which is not part of the
source tree; the orchestrator state machine below is modelled from §4.5
and §7 of the spec. -/

/-- Modelled from the spec: the state of one pipeline run,
`Running(stage) → {Completed, Cancelled, Failed(stage)}`. -/
inductive RunState where
  | running (stage : Stage)
  | completed
  | cancelled
  | failed (stage : Stage)
deriving DecidableEq, Repr

/-- A pipeline run with its identifier. -/
structure RunEntry where
  id : ℕ
  state : RunState
deriving DecidableEq, Repr

/-- Whether the run is in the `Running` state. -/
def RunEntry.isActive (r : RunEntry) : Bool :=
  match r.state with
  | .running _ => true
  | _ => false

/-- Modelled from the spec: global orchestrator state — the recorded runs,
the administrative lock, and the cooperative cancellation flag. -/
structure OrchState where
  runs : List RunEntry
  adminLocked : Bool
  cancelRequested : Bool
deriving DecidableEq, Repr

/-- Whether some run is currently `Running`. -/
def OrchState.anyActive (o : OrchState) : Bool :=
  o.runs.any RunEntry.isActive

/-- Number of runs currently in the `Running` state. -/
def activeCount (o : OrchState) : ℕ :=
  (o.runs.filter RunEntry.isActive).length

/-- Outcome of a start-run request. -/
inductive StartReply where
  | started
  | runInProgress
  | adminLockRejected
deriving DecidableEq, Repr

/-- Modelled from the spec: a start request fails fast with a "run in
progress" condition while a run is active, is rejected with the distinct
administrative-lock condition when locked, and otherwise begins the run at
the first stage; a rejected request leaves the state unchanged — nothing
is queued. -/
def startRun (o : OrchState) (id : ℕ) : StartReply × OrchState :=
  if o.anyActive then (.runInProgress, o)
  else if o.adminLocked then (.adminLockRejected, o)
  else (.started, { o with runs := ⟨id, .running .snapshotIngest⟩ :: o.runs })

/-- The successor of each stage in the canonical order. -/
def nextStage : Stage → Option Stage
  | .snapshotIngest => some .resultsIngest
  | .resultsIngest => some .identityLink
  | .identityLink => some .reconcile
  | .reconcile => some .analyticsRebuild
  | .analyticsRebuild => none

/-- Modelled from the spec: at a stage boundary a pending cancellation
takes effect, otherwise a running run advances to the next stage or
completes after the last; non-running runs are untouched. -/
def boundaryStep (cancel : Bool) (r : RunEntry) : RunEntry :=
  match r.state with
  | .running st =>
      if cancel then { r with state := .cancelled }
      else
        match nextStage st with
        | some st' => { r with state := .running st' }
        | none => { r with state := .completed }
  | _ => r

/-- Modelled from the spec: a stage fault moves the running run to
`Failed`, recording the stage that failed. -/
def failStep (r : RunEntry) : RunEntry :=
  match r.state with
  | .running st => { r with state := .failed st }
  | _ => r

/-- External orchestrator events. -/
inductive OrchEv where
  | startReq (id : ℕ)
  | boundary
  | fault
  | cancelReq
  | setLock (b : Bool)

/-- Modelled from the spec: the orchestrator transition function. -/
def applyEv (o : OrchState) (e : OrchEv) : OrchState :=
  match e with
  | .startReq id => (startRun o id).2
  | .boundary => { o with runs := o.runs.map (boundaryStep o.cancelRequested) }
  | .fault => { o with runs := o.runs.map failStep }
  | .cancelReq => { o with cancelRequested := true }
  | .setLock b => { o with adminLocked := b }

/-- The empty initial orchestrator state. -/
def initOrch : OrchState := ⟨[], false, false⟩

/-- Orchestrator state reached from the initial state by a sequence of
events. -/
def runEvents (es : List OrchEv) : OrchState :=
  es.foldl applyEv initOrch

theorem filter_active_map_le (f : RunEntry → RunEntry)
    (hf : ∀ r, (f r).isActive = true → r.isActive = true) :
    ∀ l : List RunEntry,
      ((l.map f).filter RunEntry.isActive).length ≤
        (l.filter RunEntry.isActive).length := by
  intro l
  induction l with
  | nil => simp
  | cons r l ih =>
    rw [List.map_cons, List.filter_cons, List.filter_cons]
    by_cases h1 : (f r).isActive = true
    · rw [if_pos h1, if_pos (hf r h1)]
      simpa using ih
    · rw [if_neg h1]
      by_cases h2 : r.isActive = true
      · rw [if_pos h2]
        exact le_trans ih (by simp)
      · rw [if_neg h2]
        exact ih

theorem boundaryStep_active (cancel : Bool) (r : RunEntry) :
    (boundaryStep cancel r).isActive = true → r.isActive = true := by
  intro h
  unfold boundaryStep at h
  cases hs : r.state with
  | running st => simp [RunEntry.isActive, hs]
  | completed => rw [hs] at h; exact h
  | cancelled => rw [hs] at h; exact h
  | failed st => rw [hs] at h; exact h

theorem failStep_active (r : RunEntry) :
    (failStep r).isActive = true → r.isActive = true := by
  intro h
  unfold failStep at h
  cases hs : r.state with
  | running st => simp [RunEntry.isActive, hs]
  | completed => rw [hs] at h; exact h
  | cancelled => rw [hs] at h; exact h
  | failed st => rw [hs] at h; exact h

theorem applyEv_activeCount {o : OrchState} (e : OrchEv)
    (h : activeCount o ≤ 1) : activeCount (applyEv o e) ≤ 1 := by
  cases e with
  | startReq id =>
    show activeCount (startRun o id).2 ≤ 1
    unfold startRun
    split_ifs with h1 h2
    · exact h
    · exact h
    · have hfalse : o.anyActive = false := by simpa using h1
      have hz : (o.runs.filter RunEntry.isActive).length = 0 := by
        rw [List.length_eq_zero, List.filter_eq_nil_iff]
        intro r hr
        simpa using List.any_eq_false.mp hfalse r hr
      show (((⟨id, .running .snapshotIngest⟩ : RunEntry) :: o.runs).filter
        RunEntry.isActive).length ≤ 1
      rw [List.filter_cons]
      simp [RunEntry.isActive, hz]
  | boundary =>
    exact le_trans
      (filter_active_map_le _ (boundaryStep_active o.cancelRequested) o.runs) h
  | fault =>
    exact le_trans (filter_active_map_le _ failStep_active o.runs) h
  | cancelReq => exact h
  | setLock b => exact h

theorem foldl_activeCount (es : List OrchEv) :
    ∀ o : OrchState, activeCount o ≤ 1 →
      activeCount (es.foldl applyEv o) ≤ 1 := by
  induction es with
  | nil => intro o h; exact h
  | cons e es ih =>
    intro o h
    exact ih _ (applyEv_activeCount e h)

/-- C7: in every orchestrator state reachable from the initial state at
most one run is `Running`; a start request while a run is active is
rejected immediately with the "run in progress" condition and the state —
in particular the set of recorded runs — is unchanged (nothing is
queued); a start request while administratively locked is rejected with
the distinct administrative-lock condition. -/
theorem orchestrator_exclusion :
    (∀ es : List OrchEv, activeCount (runEvents es) ≤ 1) ∧
    (∀ (o : OrchState) (id : ℕ), o.anyActive = true →
      startRun o id = (.runInProgress, o)) ∧
    (∀ (o : OrchState) (id : ℕ), o.anyActive = false → o.adminLocked = true →
      startRun o id = (.adminLockRejected, o)) ∧
    StartReply.runInProgress ≠ StartReply.adminLockRejected := by
  refine ⟨?_, ?_, ?_, by decide⟩
  · intro es
    exact foldl_activeCount es initOrch (by decide)
  · intro o id h
    unfold startRun
    rw [if_pos h]
  · intro o id h1 h2
    unfold startRun
    rw [if_neg (by simp [h1]), if_pos h2]

/-- Orchestrator state with one run mid-flight at the reconcile stage. -/
def c7Busy : OrchState := ⟨[⟨1, .running .reconcile⟩], false, false⟩

theorem orchestrator_exclusion_witness :
    startRun c7Busy 2 = (StartReply.runInProgress, c7Busy) :=
  orchestrator_exclusion.2.1 c7Busy 2 (by decide)

/-! ### C8: query-time absence
The Python analytics endpoints behind `/api/analytics/summary` and
`/api/analytics/daily` are not part of the source tree; the definitions
below are modelled from §4.4, §6 and §7 of the spec (response shapes from
`AnalyticsSummary` and `AnalyticsDailyResponse` in
`src/web/src/lib/api.ts`). -/

/-- Modelled from the spec: one stored reconciled game as the read
endpoints see it, keyed by calendar date. -/
structure StoredGame where
  date : List Char
  hasOdds : Bool
  decided : Bool
  favoriteWon : Option Bool
  favoriteProfit : ℚ
  underdogProfit : ℚ
deriving DecidableEq, Repr

/-- Summary response shape (`AnalyticsSummary` in `api.ts`). -/
structure SummaryOut where
  start : List Char
  endDate : List Char
  n_games_with_odds : ℕ
  n_decided_games : ℕ
  favorite_win_rate : Option ℚ
  underdog_win_rate : Option ℚ
  favorite_profit : Option ℚ
  underdog_profit : Option ℚ
  favorite_roi : Option ℚ
  underdog_roi : Option ℚ
  missing_dates : List (List Char)
deriving DecidableEq, Repr

/-- Daily-rollup row (`AnalyticsDailyRow` in `api.ts`). -/
structure DailyRow where
  date : List Char
  n_games_with_odds : ℕ
  n_decided_games : ℕ
deriving DecidableEq, Repr

/-- Daily response shape (`AnalyticsDailyResponse` in `api.ts`). -/
structure DailyOut where
  start : List Char
  endDate : List Char
  missing_dates : List (List Char)
  daily : List DailyRow
deriving DecidableEq, Repr

/-- Modelled from the spec: the summary read over the date range `days` —
aggregates over ingested games whose date lies in the range, rate and ROI
fields null when no game decides them, and a `missing_dates` list naming
each day with zero market-side (odds-bearing) games.  Absence of data is
data, not an error: the result is always `ok`. -/
def analyticsSummary (store : List StoredGame) (days : List (List Char)) :
    Except (List Char) SummaryOut :=
  let inRange := store.filter (fun g => decide (g.date ∈ days))
  let withOdds := inRange.filter (fun g => g.hasOdds)
  let decidedG := inRange.filter (fun g => g.decided)
  let favWins := decidedG.countP (fun g => g.favoriteWon == some true)
  let favLosses := decidedG.countP (fun g => g.favoriteWon == some false)
  let denom := favWins + favLosses
  .ok
    { start := days.headD []
      endDate := days.getLastD []
      n_games_with_odds := withOdds.length
      n_decided_games := decidedG.length
      favorite_win_rate :=
        if denom = 0 then none else some ((favWins : ℚ) / (denom : ℚ))
      underdog_win_rate :=
        if denom = 0 then none else some ((favLosses : ℚ) / (denom : ℚ))
      favorite_profit :=
        if decidedG.length = 0 then none
        else some ((decidedG.map StoredGame.favoriteProfit).sum)
      underdog_profit :=
        if decidedG.length = 0 then none
        else some ((decidedG.map StoredGame.underdogProfit).sum)
      favorite_roi :=
        if decidedG.length = 0 then none
        else some ((decidedG.map StoredGame.favoriteProfit).sum /
          (decidedG.length : ℚ))
      underdog_roi :=
        if decidedG.length = 0 then none
        else some ((decidedG.map StoredGame.underdogProfit).sum /
          (decidedG.length : ℚ))
      missing_dates :=
        days.filter (fun d =>
          decide ((store.countP
            (fun g => decide (g.date = d) && g.hasOdds)) = 0)) }

/-- Modelled from the spec: the daily read over the date range `days` —
one row per day that has market-side games, plus the same `missing_dates`
list; always `ok`. -/
def analyticsDaily (store : List StoredGame) (days : List (List Char)) :
    Except (List Char) DailyOut :=
  .ok
    { start := days.headD []
      endDate := days.getLastD []
      missing_dates :=
        days.filter (fun d =>
          decide ((store.countP
            (fun g => decide (g.date = d) && g.hasOdds)) = 0))
      daily :=
        days.filterMap (fun d =>
          let dayGames := store.filter (fun g => decide (g.date = d) && g.hasOdds)
          if dayGames.isEmpty then none
          else some
            { date := d
              n_games_with_odds := dayGames.length
              n_decided_games := (dayGames.filter (fun g => g.decided)).length }) }

/-- C8: for a requested date range with no ingested data, the summary and
daily reads both return successfully, with zero counts, null rates and
profits, an empty daily list, and a `missing_dates` list naming every day
of the range; and the two reads return `ok` for every store and range —
absence of data is never reported as an error. -/
theorem emptyRange_reads (store : List StoredGame) (days : List (List Char))
    (hempty : ∀ g ∈ store, g.date ∉ days) :
    (∃ s, analyticsSummary store days = .ok s ∧
      s.n_games_with_odds = 0 ∧ s.n_decided_games = 0 ∧
      s.favorite_win_rate = none ∧ s.underdog_win_rate = none ∧
      s.favorite_profit = none ∧ s.underdog_profit = none ∧
      s.favorite_roi = none ∧ s.underdog_roi = none ∧
      s.missing_dates = days) ∧
    (∃ d, analyticsDaily store days = .ok d ∧ d.daily = [] ∧
      d.missing_dates = days) ∧
    (∀ (store' : List StoredGame) (days' : List (List Char)),
      ∃ s, analyticsSummary store' days' = .ok s) ∧
    (∀ (store' : List StoredGame) (days' : List (List Char)),
      ∃ d, analyticsDaily store' days' = .ok d) := by
  have hnil : store.filter (fun g => decide (g.date ∈ days)) = [] := by
    rw [List.filter_eq_nil_iff]
    intro g hg
    simpa using hempty g hg
  have hcount : ∀ d ∈ days,
      store.countP (fun g => decide (g.date = d) && g.hasOdds) = 0 := by
    intro d hd
    rw [List.countP_eq_zero]
    intro g hg
    have : g.date ≠ d := fun he => hempty g hg (he ▸ hd)
    simp [this]
  have hmiss : days.filter (fun d =>
      decide ((store.countP (fun g => decide (g.date = d) && g.hasOdds)) = 0)) =
        days := by
    rw [List.filter_eq_self]
    intro d hd
    simp [hcount d hd]
  refine ⟨⟨_, rfl, ?_, ?_, ?_, ?_, ?_, ?_, ?_, ?_, hmiss⟩,
    ⟨_, rfl, ?_, hmiss⟩, fun s' d' => ⟨_, rfl⟩, fun s' d' => ⟨_, rfl⟩⟩
  · simp [hnil]
  · simp [hnil]
  · simp [hnil]
  · simp [hnil]
  · simp [hnil]
  · simp [hnil]
  · simp [hnil]
  · simp [hnil]
  · rw [List.filterMap_eq_nil_iff]
    intro d hd
    have hfil : store.filter (fun g => decide (g.date = d) && g.hasOdds) = [] := by
      rw [List.filter_eq_nil_iff]
      intro g hg
      have : g.date ≠ d := fun he => hempty g hg (he ▸ hd)
      simp [this]
    simp [hfil]

/-- Store holding one game outside the queried range. -/
def c8Store : List StoredGame :=
  [⟨"2026-02-20".toList, true, true, some true, 1, -1⟩]

/-- Queried range with no ingested data. -/
def c8Days : List (List Char) := ["2026-03-01".toList, "2026-03-02".toList]

theorem emptyRange_reads_witness :
    ∃ s, analyticsSummary c8Store c8Days = .ok s ∧
      s.n_games_with_odds = 0 ∧ s.n_decided_games = 0 ∧
      s.favorite_win_rate = none ∧ s.underdog_win_rate = none ∧
      s.favorite_profit = none ∧ s.underdog_profit = none ∧
      s.favorite_roi = none ∧ s.underdog_roi = none ∧
      s.missing_dates = c8Days :=
  (emptyRange_reads c8Store c8Days (by decide)).1

end OddsPipeline
